import Mathlib

/-!
Shallow embedding of the S3 multipart-copy sample (package `s3copier`,
file `s3copier.go`) and proofs about it.

Conventions of the embedding:
* Go `string` is Lean `String`; Go byte indexing is modelled on the
  character list `String.data` (all strings involved — eTags, keys,
  bucket names — are ASCII in this program).
* Go `int64` sizes and positions are modelled as `Nat`: every value the
  program stores in them (`ContentLength`, byte positions, part numbers)
  is non-negative and far from overflow.
* Calls to the AWS SDK are modelled by an environment record giving the
  result of each remote call; fallible calls return `Except String α`.
* A Go slice expression that can panic is modelled as `Option`:
  `none` is the out-of-bounds panic branch.
-/

namespace S3CopierModel

/-- Error values carried on Go `error`; opaque to the copier, so a plain string. -/
abbrev Err := String

/-- `FIVE_MB` constant from `s3copier.go`. -/
def FIVE_MB : Nat := 5 * 1024 * 1024

/-- `WORKER_COUNT` constant from `s3copier.go`. -/
def WORKER_COUNT : Nat := 50

/-- `S3Object` struct: a (bucket, key) pair. -/
structure S3Object where
  bucket : String
  key : String
deriving DecidableEq

/-- `(s *S3Object) bucketKeyPath()`: `fmt.Sprintf("%s/%s", s.bucket, s.key)`. -/
def bucketKeyPath (s : S3Object) : String :=
  s.bucket ++ "/" ++ s.key

/-- Go `strings.HasSuffix(s, suffix)`: byte-wise suffix test, modelled on
the character lists. -/
def hasSuffix (s suffix : String) : Bool :=
  suffix.data.isSuffixOf s.data

/-- The eTag normalization step of `copyToMultiPart`:
`etag[1 : len(etag)-1]` (comment in source: "escape duble quote").
Go panics unless `1 ≤ len(etag)-1`, i.e. unless `len(etag) ≥ 2`; the
panic branch is `none`. The slice keeps the characters at indices
`1 .. len-2`, i.e. drops exactly the first and the last character. -/
def normalizeETag (etag : String) : Option String :=
  if 2 ≤ etag.length then
    some (String.mk ((etag.data.take (etag.length - 1)).drop 1))
  else
    none

/-- The remote calls `CopyTo` can issue, in the order it issues them. -/
inductive CopyOp where
  | headOp        -- `headObject(src)`
  | rewriteOp     -- `ensureContentTypeM3u8(src)`: same-object CopyObject with MetadataDirectiveReplace
  | singleCopyOp  -- `copyToSinglePart(src, dest)`
  | multiCopyOp   -- `copyToMultiPart(src, dest)`
deriving DecidableEq

/-- Results the remote service returns to one `CopyTo` invocation:
the head call yields the object's `ContentLength`, the other calls
yield unit or an error. -/
structure CopyEnv where
  headResult : Except Err Nat
  rewriteResult : Except Err Unit
  singleResult : Except Err Unit
  multiResult : Except Err Unit

/-- `(c *S3Copier) CopyTo(src, dest)`: head the source; if the key ends in
`.m3u8`, rewrite its content type first (failure is fatal); then choose
single-shot copy when `objectSize <= FIVE_MB`, multi-part copy otherwise.
Returns the trace of remote calls issued together with the returned error. -/
def CopyTo (key : String) (env : CopyEnv) : List CopyOp × Except Err Unit :=
  match env.headResult with
  | .error e => ([.headOp], .error e)
  | .ok objectSize =>
    if hasSuffix key ".m3u8" then
      match env.rewriteResult with
      | .error e => ([.headOp, .rewriteOp], .error e)
      | .ok () =>
        if objectSize ≤ FIVE_MB then
          ([.headOp, .rewriteOp, .singleCopyOp], env.singleResult)
        else
          ([.headOp, .rewriteOp, .multiCopyOp], env.multiResult)
    else
      if objectSize ≤ FIVE_MB then
        ([.headOp, .singleCopyOp], env.singleResult)
      else
        ([.headOp, .multiCopyOp], env.multiResult)

/-! ## Part planning loop of `copyToMultiPart`

The Go loop
```
for bytePosition < objectSize {
    lastByte := bytePosition + c.partSize - 1
    if lastByte > objectSize-1 { lastByte = objectSize - 1 }
    ... // copy part [bytePosition, lastByte]
    bytePosition += c.partSize
}
```
The planning part (which byte ranges are requested) is `planPartsAux`
started at position 0. `partSize` must be positive — the real copier
configures it to `FIVE_MB * 2`, and with `partSize = 0` the Go loop
would not advance — so the positivity proof is an argument. -/

/-- One iteration plans the range `[pos, min (pos+partSize-1) (objectSize-1)]`
and advances `pos` by `partSize`; the loop stops once `pos ≥ objectSize`. -/
def planPartsAux (partSize : Nat) (hp : 0 < partSize) (objectSize pos : Nat) :
    List (Nat × Nat) :=
  if _h : pos < objectSize then
    (pos, min (pos + partSize - 1) (objectSize - 1)) ::
      planPartsAux partSize hp objectSize (pos + partSize)
  else
    []
termination_by objectSize - pos
decreasing_by omega

/-- The byte ranges `copyToMultiPart` requests for an object of
`objectSize` bytes, starting at byte position 0. -/
def planParts (objectSize partSize : Nat) (hp : 0 < partSize) : List (Nat × Nat) :=
  planPartsAux partSize hp objectSize 0

/-! ## The part-copying loop and `copyToMultiPart` -/

/-- One `uploadPartCopy` call as issued by the loop: part number, byte
range, and the eTag the service returned for it. -/
structure PartCall where
  partNumber : Nat
  startByte : Nat
  lastByte : Nat
  eTag : String
deriving DecidableEq

/-- Outcome of the part-copying loop. `swallowed e` is the branch where
`uploadPartCopy` failed with `e` and the Go code executes `return nil`
— it records which error was dropped so theorems can speak about it;
the enclosing function turns it into a success return. -/
inductive LoopResult where
  | swallowed (e : Err)
  | finished (calls : List PartCall)
deriving DecidableEq

/-- The part-copying loop of `copyToMultiPart`: plans ranges exactly as
`planPartsAux`, issues `uploadPartCopy` for each with part numbers
counting up from `partNum`, and collects the calls in issue order.
`etagOf pn` is the service's response to the copy of part `pn`. -/
def copyPartsLoop (partSize : Nat) (hp : 0 < partSize)
    (etagOf : Nat → Except Err String) (objectSize pos partNum : Nat) :
    LoopResult :=
  if _h : pos < objectSize then
    match etagOf partNum with
    | .error e => .swallowed e
    | .ok etag =>
      match copyPartsLoop partSize hp etagOf objectSize (pos + partSize) (partNum + 1) with
      | .swallowed e => .swallowed e
      | .finished rest =>
        .finished ({ partNumber := partNum
                     startByte := pos
                     lastByte := min (pos + partSize - 1) (objectSize - 1)
                     eTag := etag } :: rest)
  else
    .finished []
termination_by objectSize - pos
decreasing_by omega

/-- The `CompletedPart` manifest built by the loop and passed to
`CompleteMultipartUpload`: for each call, the part number paired with
the eTag as stored, i.e. run through the `etag[1:len(etag)-1]` slice
(`none` if that slice would panic). -/
def manifestOf (calls : List PartCall) : List (Nat × Option String) :=
  calls.map (fun c => (c.partNumber, normalizeETag c.eTag))

/-- Results the remote service returns to one `copyToMultiPart`
invocation: head, `CreateMultipartUpload` (yielding the upload id),
per-part `UploadPartCopy` responses, and `CompleteMultipartUpload`. -/
structure MultipartEnv where
  headResult : Except Err Nat
  initResult : Except Err String
  etagOf : Nat → Except Err String
  completeResult : Except Err Unit

/-- `(c *S3Copier) copyToMultiPart(src, dest)`. Faithful to the source,
including its part-failure branch, which executes `return nil`:
```
if err != nil {
    return nil
}
```
so a failed `uploadPartCopy` makes the function report success. -/
def copyToMultiPart (partSize : Nat) (hp : 0 < partSize)
    (env : MultipartEnv) : Except Err Unit :=
  match env.headResult with
  | .error e => .error e
  | .ok objectSize =>
    match env.initResult with
    | .error e => .error e
    | .ok _uploadId =>
      match copyPartsLoop partSize hp env.etagOf objectSize 0 1 with
      | .swallowed _e => .ok ()
      | .finished _calls => env.completeResult

/-! ## Worker-pool dispatcher control loop of `CopyWithPrefix`

After `ListObjectsV2Pages` has enqueued all keys (it runs to completion
before the control loop starts) the control loop is
```
check := 0
for {
    select {
    case key := <-done:    check++
    case err := <-statusChan: return err
    }
    if check >= count { return nil }
}
```
We model the sequence of channel receives as a list of events in the
order the loop observes them. `dispatchLoop` consumes them one by one;
`none` models the loop blocked forever on a `select` with no event left
to receive. -/

/-- A signal a worker sends: `doneSig key` on the done channel after a
successful copy, `errSig e` on the status channel after a failure. -/
inductive DispatchEvent where
  | doneSig (key : String)
  | errSig (e : Err)
deriving DecidableEq

/-- `true` exactly on done signals. -/
def DispatchEvent.isDone : DispatchEvent → Bool
  | .doneSig _ => true
  | .errSig _ => false

@[simp] lemma DispatchEvent.isDone_doneSig (k : String) :
    (DispatchEvent.doneSig k).isDone = true := rfl

@[simp] lemma DispatchEvent.isDone_errSig (e : Err) :
    (DispatchEvent.errSig e).isDone = false := rfl

/-- The control loop with `count` planned keys and `check` done signals
already counted: receives the next event; an error is returned
immediately; a done signal bumps `check`, and the loop returns `nil`
(success) once `check ≥ count` — the comparison happens only after a
receive. With nothing left to receive the loop blocks (`none`). -/
def dispatchLoop (count check : Nat) : List DispatchEvent → Option (Except Err Unit)
  | [] => none
  | ev :: rest =>
    match ev with
    | .errSig e => some (.error e)
    | .doneSig _ =>
      if check + 1 ≥ count then some (.ok ())
      else dispatchLoop count (check + 1) rest

/-- `(c *S3Copier) CopyWithPrefix`: `count` is the number of keys the
paginated listing returned (each listed key is enqueued and counted);
the run then blocks in the control loop on the workers' signals. -/
def copyWithPrefixRun (listedKeys : List String)
    (events : List DispatchEvent) : Option (Except Err Unit) :=
  dispatchLoop listedKeys.length 0 events

/-! ## Theorems -/

/-- C9: for every bucket and key, the derived source locator string equals
the bucket, followed by `"/"`, followed by the key. -/
theorem bucketKeyPath_eq (b k : String) :
    bucketKeyPath ⟨b, k⟩ = b ++ "/" ++ k := rfl

/-- C10: the eTag normalization step is total exactly when the returned
eTag has length at least 2: the slice `etag[1:len(etag)-1]` is in bounds
(no panic, `isSome`) iff `2 ≤ length`, so under the precondition
`len(eTag) ≥ 2` the panic branch is unreachable, and for lengths 0 and 1
the slice is out of bounds. -/
theorem normalizeETag_isSome_iff (s : String) :
    (normalizeETag s).isSome = true ↔ 2 ≤ s.length := by
  unfold normalizeETag
  split <;> simp_all

/-- C5 counterexample: the token `abc123` carries no surrounding quotes,
yet the stored eTag is `bc12`, not the unmodified token — the slice
`etag[1:len(etag)-1]` drops the first and last characters
unconditionally. -/
theorem normalizeETag_unquoted_cex :
    normalizeETag "abc123" = some "bc12" ∧
      (some "bc12" : Option String) ≠ some "abc123" := by
  constructor
  · decide
  · decide

/-- C5 amended: a quoted token has its surrounding quote characters
stripped; a token without surrounding quotes is NOT stored unmodified —
it also loses its first and last characters (witnessed by `token`,
stored as `oke`). -/
theorem normalizeETag_strips_outer_chars :
    (∀ s : String, normalizeETag ("\"" ++ s ++ "\"") = some s) ∧
      normalizeETag "token" = some "oke" := by
  constructor
  · intro s
    have hq : ("\"" : String).data = ['"'] := rfl
    have hdata : ("\"" ++ s ++ "\"").data = '"' :: (s.data ++ ['"']) := by
      simp [String.data_append, hq]
    have hone : ("\"" : String).length = 1 := rfl
    have hlen : ("\"" ++ s ++ "\"").length = s.length + 2 := by
      simp [String.length_append, hone]
      omega
    have hsl : s.length = s.data.length := rfl
    unfold normalizeETag
    rw [hlen, hdata, if_pos (by omega)]
    have htake : (('"' :: (s.data ++ ['"'])).take (s.length + 2 - 1)) = '"' :: s.data := by
      have hn : s.length + 2 - 1 = s.data.length + 1 := by omega
      rw [hn, List.take_succ_cons, List.take_left]
    rw [htake]
    simp
  · decide

/-- C1 (code bug made concrete): when `uploadPartCopy` for part 1 fails,
`copyToMultiPart` stops but returns success (`return nil` in the error
branch), not the error — evaluated here with a 3-byte object whose first
part copy fails. -/
theorem copyToMultiPart_swallows_part_error :
    copyToMultiPart (FIVE_MB * 2) (by decide)
      { headResult := .ok 3
        initResult := .ok "uploadId"
        etagOf := fun _ => .error "part copy failed"
        completeResult := .ok () } = .ok () := by
  simp [copyToMultiPart, copyPartsLoop]

/-- C7 (code bug made concrete): with zero listed keys there are no jobs,
so no worker ever signals, and the control loop blocks forever in its
`select` before it ever compares `check >= count` — it never returns
success for the empty listing. -/
theorem copyWithPrefixRun_zero_keys_blocks :
    copyWithPrefixRun [] [] = none := rfl

/-- C4: once the head call has returned size `n` (and the `.m3u8` rewrite,
if triggered, succeeded), `CopyTo` issues the single-shot copy exactly
when `n ≤ FIVE_MB` and the multi-part copy exactly when `FIVE_MB < n`;
in particular size `FIVE_MB` goes single-shot, `FIVE_MB + 1` goes
multi-part, and size 0 goes single-shot, never reaching the part
planner. -/
theorem copyTo_strategy_boundary (key : String) (env : CopyEnv) (n : Nat)
    (hh : env.headResult = .ok n)
    (hr : hasSuffix key ".m3u8" = false ∨ env.rewriteResult = .ok ()) :
    ((CopyOp.singleCopyOp ∈ (CopyTo key env).1 ↔ n ≤ FIVE_MB) ∧
     (CopyOp.multiCopyOp ∈ (CopyTo key env).1 ↔ FIVE_MB < n)) := by
  unfold CopyTo
  rw [hh]
  rcases hr with hr | hr
  · rw [hr]
    by_cases hn : n ≤ FIVE_MB <;> (simp [hn]; try omega)
  · rw [hr]
    by_cases hsuf : hasSuffix key ".m3u8" <;>
      by_cases hn : n ≤ FIVE_MB <;> (simp [hsuf, hn]; try omega)

/-- C4 witness: with a successful environment, an object of exactly
`FIVE_MB` bytes is routed to single-shot copy, `FIVE_MB + 1` to
multi-part, and a 0-byte object to single-shot. -/
theorem copyTo_strategy_boundary_witness :
    (((CopyOp.singleCopyOp ∈
        (CopyTo "k" ⟨.ok FIVE_MB, .ok (), .ok (), .ok ()⟩).1 ↔ FIVE_MB ≤ FIVE_MB) ∧
      (CopyOp.multiCopyOp ∈
        (CopyTo "k" ⟨.ok FIVE_MB, .ok (), .ok (), .ok ()⟩).1 ↔ FIVE_MB < FIVE_MB)) ∧
     ((CopyOp.singleCopyOp ∈
        (CopyTo "k" ⟨.ok (FIVE_MB + 1), .ok (), .ok (), .ok ()⟩).1 ↔ FIVE_MB + 1 ≤ FIVE_MB) ∧
      (CopyOp.multiCopyOp ∈
        (CopyTo "k" ⟨.ok (FIVE_MB + 1), .ok (), .ok (), .ok ()⟩).1 ↔ FIVE_MB < FIVE_MB + 1)) ∧
     ((CopyOp.singleCopyOp ∈
        (CopyTo "k" ⟨.ok 0, .ok (), .ok (), .ok ()⟩).1 ↔ 0 ≤ FIVE_MB) ∧
      (CopyOp.multiCopyOp ∈
        (CopyTo "k" ⟨.ok 0, .ok (), .ok (), .ok ()⟩).1 ↔ FIVE_MB < 0))) :=
  ⟨copyTo_strategy_boundary "k" _ FIVE_MB rfl (Or.inl (by decide)),
   copyTo_strategy_boundary "k" _ (FIVE_MB + 1) rfl (Or.inl (by decide)),
   copyTo_strategy_boundary "k" _ 0 rfl (Or.inl (by decide))⟩

/-- C8: a key ending in `.m3u8` triggers exactly one metadata-rewrite
call, issued right after the head call and before any data copy; a
failure of the rewrite is returned as this object's error and no data
copy (single- or multi-part) is issued; a key without that suffix
triggers no rewrite call at all. -/
theorem copyTo_m3u8_rewrite (key : String) (env : CopyEnv) :
    (hasSuffix key ".m3u8" = true →
      ∀ n, env.headResult = .ok n →
        ((CopyTo key env).1.count CopyOp.rewriteOp = 1 ∧
         (∃ rest, (CopyTo key env).1 = CopyOp.headOp :: CopyOp.rewriteOp :: rest) ∧
         (∀ e, env.rewriteResult = .error e →
           (CopyTo key env).2 = .error e ∧
           CopyOp.singleCopyOp ∉ (CopyTo key env).1 ∧
           CopyOp.multiCopyOp ∉ (CopyTo key env).1))) ∧
    (hasSuffix key ".m3u8" = false →
      (CopyTo key env).1.count CopyOp.rewriteOp = 0) := by
  obtain ⟨hres, rres, sres, mres⟩ := env
  constructor
  · intro hsuf n hh
    simp only at hh
    subst hh
    match rres with
    | .error e =>
      refine ⟨?_, ⟨[], ?_⟩, ?_⟩ <;>
        simp [CopyTo, hsuf]
    | .ok () =>
      by_cases hn : n ≤ FIVE_MB
      · refine ⟨?_, ⟨[CopyOp.singleCopyOp], ?_⟩, ?_⟩ <;> simp [CopyTo, hsuf, hn]
      · refine ⟨?_, ⟨[CopyOp.multiCopyOp], ?_⟩, ?_⟩ <;> simp [CopyTo, hsuf, hn]
  · intro hsuf
    match hres with
    | .error e => simp [CopyTo, hsuf]
    | .ok n =>
      by_cases hn : n ≤ FIVE_MB <;> simp [CopyTo, hsuf, hn]

/-- C8 witness: for the key `a.m3u8` with a failing rewrite call, the
rewrite is issued exactly once right after the head call, the rewrite's
error is the returned error, and no data copy is issued; for the key
`a.ts` no rewrite call is made. -/
theorem copyTo_m3u8_rewrite_witness :
    ((∀ n, (Except.ok 7 : Except Err Nat) = .ok n →
        ((CopyTo "a.m3u8" ⟨.ok 7, .error "rewrite failed", .ok (), .ok ()⟩).1.count
            CopyOp.rewriteOp = 1 ∧
         (∃ rest, (CopyTo "a.m3u8" ⟨.ok 7, .error "rewrite failed", .ok (), .ok ()⟩).1 =
            CopyOp.headOp :: CopyOp.rewriteOp :: rest) ∧
         (∀ e, (Except.error "rewrite failed" : Except Err Unit) = .error e →
           (CopyTo "a.m3u8" ⟨.ok 7, .error "rewrite failed", .ok (), .ok ()⟩).2 = .error e ∧
           CopyOp.singleCopyOp ∉
             (CopyTo "a.m3u8" ⟨.ok 7, .error "rewrite failed", .ok (), .ok ()⟩).1 ∧
           CopyOp.multiCopyOp ∉
             (CopyTo "a.m3u8" ⟨.ok 7, .error "rewrite failed", .ok (), .ok ()⟩).1))) ∧
     (CopyTo "a.ts" ⟨.ok 7, .ok (), .ok (), .ok ()⟩).1.count CopyOp.rewriteOp = 0) :=
  ⟨(copyTo_m3u8_rewrite "a.m3u8" ⟨.ok 7, .error "rewrite failed", .ok (), .ok ()⟩).1
      (by decide),
   (copyTo_m3u8_rewrite "a.ts" ⟨.ok 7, .ok (), .ok (), .ok ()⟩).2 (by decide)⟩

/-- Helper: if the control loop returns success and the events carry at
most `count - check` done signals in total, then the loop consumed a
prefix made only of done signals whose length brings `check` exactly to
`count`. -/
lemma dispatchLoop_ok_spec :
    ∀ (events : List DispatchEvent) (count check : Nat),
      dispatchLoop count check events = some (.ok ()) →
      events.countP (fun ev => ev.isDone) + check ≤ count →
      ∃ consumed rest, consumed ++ rest = events ∧
        consumed.countP (fun ev => ev.isDone) + check = count ∧
        ∀ ev ∈ consumed, ev.isDone = true := by
  intro events
  induction events with
  | nil => intro count check h _; simp [dispatchLoop] at h
  | cons ev rest ih =>
    intro count check h hcnt
    match ev with
    | .errSig e => simp [dispatchLoop] at h
    | .doneSig k =>
      rw [dispatchLoop] at h
      by_cases hge : check + 1 ≥ count
      · rw [if_pos hge] at h
        refine ⟨[.doneSig k], rest, rfl, ?_, ?_⟩
        · simp [List.countP_cons] at hcnt ⊢
          omega
        · intro e he
          simp at he
          subst he
          rfl
      · rw [if_neg hge] at h
        have hcnt' : rest.countP (fun ev => ev.isDone) + (check + 1) ≤ count := by
          simp [List.countP_cons] at hcnt
          omega
        obtain ⟨consumed, rest', heq, hc, hall⟩ := ih count (check + 1) h hcnt'
        refine ⟨.doneSig k :: consumed, rest', by simp [heq], ?_, ?_⟩
        · simp [List.countP_cons]
          omega
        · intro e he
          rcases List.mem_cons.mp he with he | he
          · subst he; rfl
          · exact hall e he

/-- C3: the dispatcher control loop (a) returns an error the moment it
receives one on the error channel, and (b) returns success only after
consuming done signals whose number equals the number of listed keys,
with no error among the consumed signals (given that workers emit at
most one done signal per enqueued key). -/
theorem dispatch_error_and_success :
    (∀ (count check : Nat) (e : Err) (rest : List DispatchEvent),
       dispatchLoop count check (DispatchEvent.errSig e :: rest) = some (.error e)) ∧
    (∀ (keys : List String) (events : List DispatchEvent),
       events.countP (fun ev => ev.isDone) ≤ keys.length →
       copyWithPrefixRun keys events = some (.ok ()) →
       ∃ consumed rest, consumed ++ rest = events ∧
         consumed.countP (fun ev => ev.isDone) = keys.length ∧
         ∀ ev ∈ consumed, ev.isDone = true) := by
  constructor
  · intro count check e rest
    rfl
  · intro keys events hcnt h
    obtain ⟨consumed, rest, heq, hc, hall⟩ :=
      dispatchLoop_ok_spec events keys.length 0 h (by omega)
    exact ⟨consumed, rest, heq, by omega, hall⟩

/-- C3 witness: with two listed keys and two done signals, the run
returns success, having consumed exactly the two done signals; and an
error signal at the head of the queue is returned immediately. -/
theorem dispatch_error_and_success_witness :
    dispatchLoop 2 0 [DispatchEvent.errSig "boom"] = some (.error "boom") ∧
    ∃ consumed rest,
      consumed ++ rest = [DispatchEvent.doneSig "a", DispatchEvent.doneSig "b"] ∧
      consumed.countP (fun ev => ev.isDone) = (["a", "b"] : List String).length ∧
      ∀ ev ∈ consumed, ev.isDone = true :=
  ⟨dispatch_error_and_success.1 2 0 "boom" [],
   dispatch_error_and_success.2 ["a", "b"]
     [DispatchEvent.doneSig "a", DispatchEvent.doneSig "b"] (by decide) rfl⟩

/-- Helper: `range' s n` is strictly increasing. -/
lemma chain'_lt_range' (n : Nat) : ∀ s : Nat, List.Chain' (· < ·) (List.range' s n) := by
  induction n with
  | zero => intro s; simp
  | succ m ih =>
    intro s
    rw [List.range'_succ]
    match m with
    | 0 => simp
    | k + 1 =>
      rw [List.range'_succ]
      refine List.chain'_cons.mpr ⟨by omega, ?_⟩
      rw [← List.range'_succ]
      exact ih (s + 1)

/-- Helper: when the part-copying loop finishes, the byte ranges it
requested are exactly the planned ones from the same start position and
the part numbers it used count up one by one from the starting number. -/
lemma copyPartsLoop_finished_spec (p : Nat) (hp : 0 < p)
    (etagOf : Nat → Except Err String) (n : Nat) :
    ∀ (pos pn : Nat) (calls : List PartCall),
      copyPartsLoop p hp etagOf n pos pn = .finished calls →
      calls.map (fun c => (c.startByte, c.lastByte)) = planPartsAux p hp n pos ∧
      calls.map (fun c => c.partNumber) =
        List.range' pn (planPartsAux p hp n pos).length := by
  intro pos pn
  induction pos, pn using copyPartsLoop.induct p hp etagOf n with
  | case1 pos pn hlt e he =>
    intro calls h
    rw [copyPartsLoop, dif_pos hlt, he] at h
    simp at h
  | case2 pos pn hlt etag he e hrec _ih =>
    intro calls h
    rw [copyPartsLoop, dif_pos hlt, he, hrec] at h
    simp at h
  | case3 pos pn hlt etag he rest hrec ih =>
    intro calls h
    rw [copyPartsLoop, dif_pos hlt, he, hrec] at h
    simp only [LoopResult.finished.injEq] at h
    subst h
    obtain ⟨ih1, ih2⟩ := ih rest hrec
    rw [planPartsAux, dif_pos hlt]
    constructor
    · simpa using ih1
    · simp only [List.map_cons, List.length_cons, List.range'_succ]
      simpa using ih2
  | case4 pos pn hnlt =>
    intro calls h
    rw [copyPartsLoop, dif_neg hnlt] at h
    simp only [LoopResult.finished.injEq] at h
    subst h
    rw [planPartsAux, dif_neg hnlt]
    simp

/-- C6: when `copyToMultiPart`'s loop runs to completion (so the
completion call is reached), the parts were copied with strictly
ascending part numbers, the byte ranges were exactly the planned ones,
and the Completed Part manifest passed to `CompleteMultipartUpload`
carries exactly the part numbers `1..N` of the `N` planned parts, in
order, with no gaps and no duplicates. -/
theorem copyPartsLoop_manifest (n p : Nat) (hp : 0 < p)
    (etagOf : Nat → Except Err String) (calls : List PartCall)
    (h : copyPartsLoop p hp etagOf n 0 1 = .finished calls) :
    (manifestOf calls).map Prod.fst = List.range' 1 (planParts n p hp).length ∧
    calls.map (fun c => (c.startByte, c.lastByte)) = planParts n p hp ∧
    List.Chain' (· < ·) ((manifestOf calls).map Prod.fst) := by
  obtain ⟨h1, h2⟩ := copyPartsLoop_finished_spec p hp etagOf n 0 1 calls h
  have hm : (manifestOf calls).map Prod.fst = calls.map (fun c => c.partNumber) := by
    simp [manifestOf, List.map_map, Function.comp]
  refine ⟨?_, ?_, ?_⟩
  · rw [hm, h2]; rfl
  · exact h1
  · rw [hm, h2]
    exact chain'_lt_range' _ 1

/-- C6 witness: a 3-byte object with part size 2 finishes with two part
calls, part numbers `[1, 2]` — exactly `range' 1 2`, strictly
ascending, matching the two planned ranges `[(0, 1), (2, 2)]`. -/
theorem copyPartsLoop_manifest_witness :
    (manifestOf [⟨1, 0, 1, "\"e\""⟩, ⟨2, 2, 2, "\"e\""⟩]).map Prod.fst =
        List.range' 1 (planParts 3 2 (by decide)).length ∧
    ([⟨1, 0, 1, "\"e\""⟩, ⟨2, 2, 2, "\"e\""⟩] : List PartCall).map
        (fun c => (c.startByte, c.lastByte)) = planParts 3 2 (by decide) ∧
    List.Chain' (· < ·)
      ((manifestOf [⟨1, 0, 1, "\"e\""⟩, ⟨2, 2, 2, "\"e\""⟩]).map Prod.fst) :=
  copyPartsLoop_manifest 3 2 (by decide) (fun _ => .ok "\"e\"")
    [⟨1, 0, 1, "\"e\""⟩, ⟨2, 2, 2, "\"e\""⟩] (by simp [copyPartsLoop])

/-- Helper: closed form of the planning loop from an arbitrary start
position — `(n - pos + p - 1) / p` parts, the `i`-th spanning
`[pos + i*p, min (pos + (i+1)*p - 1) (n-1)]`. -/
lemma planPartsAux_closed (p : Nat) (hp : 0 < p) (n : Nat) :
    ∀ pos : Nat, planPartsAux p hp n pos =
      (List.range ((n - pos + p - 1) / p)).map
        (fun i => (pos + i * p, min (pos + (i + 1) * p - 1) (n - 1))) := by
  intro pos
  induction pos using planPartsAux.induct p hp n with
  | case1 pos hlt ih =>
    rw [planPartsAux, dif_pos hlt, ih]
    have hK : (n - pos + p - 1) / p = (n - (pos + p) + p - 1) / p + 1 := by
      have h1 : n - pos + p - 1 = (n - pos - 1) + p := by omega
      rw [h1, Nat.add_div_right _ hp]
      rcases Nat.le_total p (n - pos) with hle | hle
      · have h2 : n - (pos + p) + p - 1 = n - pos - 1 := by omega
        rw [h2]
      · have h2 : n - (pos + p) + p - 1 = p - 1 := by omega
        rw [h2, Nat.div_eq_of_lt (by omega), Nat.div_eq_of_lt (by omega)]
    rw [hK, List.range_succ_eq_map, List.map_cons, List.map_map]
    have hhead : (pos + 0 * p, min (pos + (0 + 1) * p - 1) (n - 1)) =
        (pos, min (pos + p - 1) (n - 1)) := by
      simp
    have htail : ∀ i : Nat,
        ((fun i => (pos + i * p, min (pos + (i + 1) * p - 1) (n - 1))) ∘ Nat.succ) i =
          (pos + p + i * p, min (pos + p + (i + 1) * p - 1) (n - 1)) := by
      intro i
      have e1 : pos + (i + 1) * p = pos + p + i * p := by ring
      have e2 : pos + (i + 1 + 1) * p = pos + p + (i + 1) * p := by ring
      simp only [Function.comp, Nat.succ_eq_add_one]
      rw [e1, e2]
    rw [hhead, List.map_congr_left (fun i _ => htail i)]
  | case2 pos hnlt =>
    rw [planPartsAux, dif_neg hnlt]
    have h0 : n - pos = 0 := by omega
    rw [h0]
    simp [Nat.div_eq_of_lt (show p - 1 < p by omega)]

/-- Helper: closed form of `planParts`. -/
lemma planParts_closed (n p : Nat) (hp : 0 < p) :
    planParts n p hp =
      (List.range ((n + p - 1) / p)).map
        (fun i => (i * p, min ((i + 1) * p - 1) (n - 1))) := by
  rw [planParts, planPartsAux_closed]
  simp

/-- Helper: number of planned parts. -/
lemma planParts_length (n p : Nat) (hp : 0 < p) :
    (planParts n p hp).length = (n + p - 1) / p := by
  rw [planParts_closed]
  simp

/-- Helper: the `i`-th planned part. -/
lemma planParts_getElem (n p : Nat) (hp : 0 < p) (i : Nat)
    (hi : i < (planParts n p hp).length) :
    (planParts n p hp)[i] = (i * p, min ((i + 1) * p - 1) (n - 1)) := by
  have hc := planParts_closed n p hp
  simp only [hc, List.getElem_map, List.getElem_range]

/-- Helper: the ceiling count, written with the positive numerator. -/
lemma ceil_count_eq (n p : Nat) (hn : 0 < n) (hp : 0 < p) :
    (n + p - 1) / p = (n - 1) / p + 1 := by
  have h1 : n + p - 1 = (n - 1) + p := by omega
  rw [h1, Nat.add_div_right _ hp]

/-- C2: for every `objectSize > 0` and `partSize > 0`, the planned byte
ranges number exactly `ceil(objectSize/partSize)`; each has
`start ≤ end < objectSize`; they are pairwise non-overlapping,
contiguous (each range starts one byte after its predecessor ends),
they cover every byte of `[0, objectSize)`, and the last range ends at
byte `objectSize - 1`. -/
theorem planParts_spec (n p : Nat) (hn : 0 < n) (hp : 0 < p) :
    (planParts n p hp).length = (n + p - 1) / p ∧
    (∀ i : Nat, ∀ hi : i < (planParts n p hp).length,
       ((planParts n p hp)[i]).1 ≤ ((planParts n p hp)[i]).2 ∧
       ((planParts n p hp)[i]).2 < n) ∧
    (∀ i j : Nat, ∀ hi : i < (planParts n p hp).length,
       ∀ hj : j < (planParts n p hp).length, i < j →
       ((planParts n p hp)[i]).2 < ((planParts n p hp)[j]).1) ∧
    (∀ i : Nat, ∀ hi : i + 1 < (planParts n p hp).length,
       ((planParts n p hp)[i + 1]).1 = ((planParts n p hp)[i]).2 + 1) ∧
    (∀ b : Nat, b < n → ∃ i : Nat, ∃ hi : i < (planParts n p hp).length,
       ((planParts n p hp)[i]).1 ≤ b ∧ b ≤ ((planParts n p hp)[i]).2) ∧
    (∀ h : planParts n p hp ≠ [],
       ((planParts n p hp).getLast h).2 = n - 1) := by
  have hlen := planParts_length n p hp
  have hceil := ceil_count_eq n p hn hp
  refine ⟨hlen, ?_, ?_, ?_, ?_, ?_⟩
  · -- well-formed, in-bounds ranges
    intro i hi
    rw [planParts_getElem n p hp i hi]
    have hiK : i ≤ (n - 1) / p := by omega
    have hmono : i * p ≤ ((n - 1) / p) * p := Nat.mul_le_mul_right p hiK
    have hdms : ((n - 1) / p) * p ≤ n - 1 := Nat.div_mul_le_self _ _
    have hx : (i + 1) * p = i * p + p := by ring
    simp only
    omega
  · -- pairwise non-overlapping
    intro i j hi hj hij
    rw [planParts_getElem n p hp i hi, planParts_getElem n p hp j hj]
    have hmono : (i + 1) * p ≤ j * p := Nat.mul_le_mul_right p (by omega)
    have hx : (i + 1) * p = i * p + p := by ring
    simp only
    omega
  · -- contiguous
    intro i hi
    rw [planParts_getElem n p hp (i + 1) hi, planParts_getElem n p hp i (by omega)]
    have hiK : i + 1 ≤ (n - 1) / p := by omega
    have hmono : (i + 1) * p ≤ ((n - 1) / p) * p := Nat.mul_le_mul_right p hiK
    have hdms : ((n - 1) / p) * p ≤ n - 1 := Nat.div_mul_le_self _ _
    have hx : (i + 1) * p = i * p + p := by ring
    simp only
    omega
  · -- coverage of [0, objectSize)
    intro b hb
    refine ⟨b / p, by
        have hdd : b / p ≤ (n - 1) / p := Nat.div_le_div_right (by omega)
        omega, ?_⟩
    rw [planParts_getElem n p hp (b / p) (by
        have hdd : b / p ≤ (n - 1) / p := Nat.div_le_div_right (by omega)
        omega)]
    have hlow : b / p * p ≤ b := Nat.div_mul_le_self _ _
    have hhigh : b < (b / p + 1) * p := (Nat.div_lt_iff_lt_mul hp).mp (Nat.lt_succ_self _)
    simp only
    omega
  · -- last range ends at objectSize - 1
    intro h
    rw [List.getLast_eq_getElem]
    have hne : 0 < (planParts n p hp).length := List.length_pos.mpr h
    rw [planParts_getElem n p hp _ (by omega)]
    have hlast : (planParts n p hp).length - 1 + 1 = (n - 1) / p + 1 := by omega
    rw [hlast]
    have hhigh : n - 1 < ((n - 1) / p + 1) * p :=
      (Nat.div_lt_iff_lt_mul hp).mp (Nat.lt_succ_self _)
    simp only
    omega

/-- C2 witness: a 3-byte object with part size 2 yields
`ceil(3/2) = 2` contiguous, non-overlapping ranges covering `[0, 3)`
and ending at byte 2. -/
theorem planParts_spec_witness :
    (planParts 3 2 (by decide)).length = (3 + 2 - 1) / 2 ∧
    (∀ i : Nat, ∀ hi : i < (planParts 3 2 (by decide)).length,
       ((planParts 3 2 (by decide))[i]).1 ≤ ((planParts 3 2 (by decide))[i]).2 ∧
       ((planParts 3 2 (by decide))[i]).2 < 3) ∧
    (∀ i j : Nat, ∀ hi : i < (planParts 3 2 (by decide)).length,
       ∀ hj : j < (planParts 3 2 (by decide)).length, i < j →
       ((planParts 3 2 (by decide))[i]).2 < ((planParts 3 2 (by decide))[j]).1) ∧
    (∀ i : Nat, ∀ hi : i + 1 < (planParts 3 2 (by decide)).length,
       ((planParts 3 2 (by decide))[i + 1]).1 = ((planParts 3 2 (by decide))[i]).2 + 1) ∧
    (∀ b : Nat, b < 3 → ∃ i : Nat, ∃ hi : i < (planParts 3 2 (by decide)).length,
       ((planParts 3 2 (by decide))[i]).1 ≤ b ∧ b ≤ ((planParts 3 2 (by decide))[i]).2) ∧
    (∀ h : planParts 3 2 (by decide) ≠ [],
       ((planParts 3 2 (by decide)).getLast h).2 = 3 - 1) :=
  planParts_spec 3 2 (by decide) (by decide)

end S3CopierModel
